import Mathlib

/-!
Verification of the `betterjson` wrapper library (src/betterjson.go).

The library wraps a dynamic JSON tree (held by the external
`bitly/go-simplejson` library) into a null-safe `Json` value that is either
empty (`value == nil`) or holds a tree node.  We embed the dynamic tree as
the inductive `JVal` below; a Go `map[string]interface{}` node is embedded
as an association list whose key order is immaterial (Go maps are unordered;
every operation of the source that observes keys either looks one up or
sorts them first).  Functions of the wrapper are translated one-to-one from
src/betterjson.go; functions of the external libraries (`go-simplejson`,
`encoding/json`) are modelled from their documented behaviour in the
`SimpleJson` namespace and the encoder section.  A Go `panic` (a nil-pointer
dereference or `log.Panicf`) is embedded as `Option.none` / `MustOut.fatal`.
-/

namespace Betterjson

/-- The dynamic JSON tree of the underlying library: `data interface{}` of a
`simplejson.Json` node.  Numbers are embedded as integers (the documents the
claims quantify over are integral; nothing in the digest/navigation logic
depends on fractional parts). -/
inductive JVal where
  | null : JVal
  | bool (b : Bool) : JVal
  | num (n : Int) : JVal
  | str (s : String) : JVal
  | arr (xs : List JVal) : JVal
  | obj (fields : List (String × JVal)) : JVal

/-- Go map lookup `m[key]` on the association-list embedding (first match;
a Go map never holds a key twice). -/
def lookupField : List (String × JVal) → String → Option JVal
  | [], _ => none
  | (k, v) :: fs, key => if k = key then some v else lookupField fs key

/-- Lookup defaulting to the JSON null marker (`&Json{nil}` of go-simplejson). -/
def lookupD (fs : List (String × JVal)) (key : String) : JVal :=
  (lookupField fs key).getD .null

/-- Go map update `m[key] = v`: replace the binding if present, else add it. -/
def setField : List (String × JVal) → String → JVal → List (String × JVal)
  | [], key, v => [(key, v)]
  | (k, w) :: fs, key, v =>
      if k = key then (key, v) :: fs else (k, w) :: setField fs key v

/-- Go map delete `delete(m, key)`. -/
def removeField : List (String × JVal) → String → List (String × JVal)
  | [], _ => []
  | (k, w) :: fs, key =>
      if k = key then removeField fs key else (k, w) :: removeField fs key

/-! ### Decimal rendering of numbers (model of the external encoder's output) -/

/-- The decimal digit characters `'0'..'9'`. -/
def digitChar (d : Nat) : Char := Char.ofNat (48 + d)

/-- `48 ≤ c ≤ 57`, i.e. `c` is one of `'0'..'9'`. -/
def isDigitChar (c : Char) : Bool := 48 ≤ c.toNat && c.toNat ≤ 57

/-- Digits of `n`, most significant first, accumulated onto `acc`; `fuel ≥ n`
suffices (the number shrinks ten-fold each step). -/
def natCharsAux (fuel : Nat) (n : Nat) (acc : List Char) : List Char :=
  match fuel with
  | 0 => acc
  | fuel + 1 => if n = 0 then acc else natCharsAux fuel (n / 10) (digitChar (n % 10) :: acc)

/-- Decimal rendering of a natural number. -/
def natChars (n : Nat) : List Char :=
  if n = 0 then ['0'] else natCharsAux n n []

/-- Decimal rendering of an integer, as the external encoder prints an
integral JSON number. -/
def intChars (n : Int) : List Char :=
  if n < 0 then '-' :: natChars n.natAbs else natChars n.natAbs

/-! ### JSON string escaping (model of the external encoder, HTML escaping on) -/

/-- Lower-case hexadecimal digit characters. -/
def hexChar (d : Nat) : Char := if d < 10 then Char.ofNat (48 + d) else Char.ofNat (87 + d)

/-- How the external encoder writes one character of a string literal:
`"` and `\` get a backslash escape, `\n` `\r` `\t` their short escapes, other
control characters (and, with HTML escaping on, `<` `>` `&` and U+2028/U+2029)
a `\u` escape; everything else is written as itself. -/
def escChar (c : Char) : List Char :=
  if c = '"' then ['\\', '"']
  else if c = '\\' then ['\\', '\\']
  else if c = '\n' then ['\\', 'n']
  else if c = '\r' then ['\\', 'r']
  else if c = '\t' then ['\\', 't']
  else if c.toNat < 32 then ['\\', 'u', '0', '0', hexChar (c.toNat / 16), hexChar (c.toNat % 16)]
  else if c = '<' then ['\\', 'u', '0', '0', '3', 'c']
  else if c = '>' then ['\\', 'u', '0', '0', '3', 'e']
  else if c = '&' then ['\\', 'u', '0', '0', '2', '6']
  else if c.toNat = 0x2028 then ['\\', 'u', '2', '0', '2', '8']
  else if c.toNat = 0x2029 then ['\\', 'u', '2', '0', '2', '9']
  else [c]

/-- Escaped body of a string literal. -/
def escList : List Char → List Char
  | [] => []
  | c :: cs => escChar c ++ escList cs

/-- A JSON string literal as the external encoder writes it (`json.Marshal`
of a Go string): opening quote, escaped body, closing quote. -/
def encStrChars (s : String) : List Char :=
  '"' :: escList s.data ++ ['"']

/-! ### Sorting keys (model of Go's `sort.Strings`: lexicographic byte order;
UTF-8 byte order and code-point order agree) -/

/-- Lexicographic comparison of character lists by code point. -/
def lexLe : List Char → List Char → Bool
  | [], _ => true
  | _ :: _, [] => false
  | a :: as, b :: bs =>
      if a.toNat < b.toNat then true
      else if b.toNat < a.toNat then false
      else lexLe as bs

/-- Lexicographic string order, as Go's `sort.Strings` compares. -/
def strLe (a b : String) : Bool := lexLe a.data b.data

/-- `sort.Strings`. -/
def sortStrings (l : List String) : List String :=
  List.insertionSort (fun a b => strLe a b = true) l

/-- Comma-join, as the digest loop writes a separator before every item but
the first. -/
def joinComma : List (List Char) → List Char
  | [] => []
  | [x] => x
  | x :: y :: rest => x ++ ',' :: joinComma (y :: rest)

/-! ### A size measure for fuel (the auto-derived `SizeOf` of the nested
inductive carries no executable code, so recursions below take explicit fuel
bounded by this computable measure). -/

mutual

/-- Size of a tree node. -/
def jsize : JVal → Nat
  | .null => 1
  | .bool _ => 1
  | .num _ => 1
  | .str _ => 1
  | .arr xs => 1 + jsizeL xs
  | .obj fs => 1 + jsizeF fs

/-- Size of a list of tree nodes. -/
def jsizeL : List JVal → Nat
  | [] => 0
  | x :: xs => 1 + jsize x + jsizeL xs

/-- Size of a field list. -/
def jsizeF : List (String × JVal) → Nat
  | [] => 0
  | (_, v) :: fs => 1 + jsize v + jsizeF fs

end

/-! ### The external encoder (`json.Marshal` via `simplejson.Json.Encode`):
compact output, object keys sorted.  Defined with explicit fuel so that it
computes by kernel reduction; `jsize` of the value is always enough fuel. -/

/-- The 4-byte literal `null`. -/
def nullChars : List Char := ['n', 'u', 'l', 'l']

/-- The literals `true` and `false`. -/
def boolChars (b : Bool) : List Char :=
  if b then ['t', 'r', 'u', 'e'] else ['f', 'a', 'l', 's', 'e']

/-- One step of the encoder, on `fuel + 1`; `encodeV` below supplies enough
fuel for the whole tree. -/
def encodeF : Nat → JVal → List Char
  | 0, _ => []
  | fuel + 1, v =>
    match v with
    | .null => nullChars
    | .bool b => boolChars b
    | .num n => intChars n
    | .str s => encStrChars s
    | .arr xs => '[' :: joinComma (xs.map (encodeF fuel)) ++ [']']
    | .obj fs =>
        '{' :: joinComma ((sortStrings (fs.map Prod.fst)).map
          (fun k => encStrChars k ++ ':' :: encodeF fuel (lookupD fs k))) ++ ['}']

/-- `json.Marshal` of a tree node. -/
def encodeV (v : JVal) : List Char := encodeF (jsize v) v

/-! ### `DigestJSONForEqual`'s recursion over a (never empty) tree node,
translated from src/betterjson.go lines 468-519: try the array view first
(digest the elements by index, in order, inside `[...]`), then the map view
(collect the keys, sort them, write each marshalled key, a colon and the
digest of `Get(key)`, inside `{...}`), and fall back to the plain encoding
for scalars.  The `json.Marshal(key)` error branch of the source (the
inline `"error":"error"` text) is dead here: marshalling a string never
fails in the encoder model.  Explicit fuel again; `jsize` is enough. -/

/-- One step of the digest recursion, on `fuel + 1`. -/
def digestF : Nat → JVal → List Char
  | 0, _ => []
  | fuel + 1, v =>
    match v with
    | .arr xs => '[' :: joinComma (xs.map (digestF fuel)) ++ [']']
    | .obj fs =>
        '{' :: joinComma ((sortStrings (fs.map Prod.fst)).map
          (fun k => encStrChars k ++ ':' :: digestF fuel (lookupD fs k))) ++ ['}']
    | v => encodeV v

/-- Digest of a (non-empty) tree node. -/
def digestV (v : JVal) : List Char := digestF (jsize v) v

/-! ## The external go-simplejson operations the wrapper delegates to,
modelled on the tree (`j.data` of a non-nil `*simplejson.Json`). -/

namespace SimpleJson

/-- `simplejson.Json.CheckGet`: map view plus key lookup; `none` is Go's
`ok == false`. -/
def checkGet (v : JVal) (key : String) : Option JVal :=
  match v with
  | .obj fs => lookupField fs key
  | _ => none

/-- `simplejson.Json.Get`: like `CheckGet` but yielding the null marker
`&Json{nil}` when the value is not a map or the key is absent. -/
def get (v : JVal) (key : String) : JVal :=
  (checkGet v key).getD .null

/-- `simplejson.Json.GetIndex` (at a non-negative index): the element when
the value is an array and the index is in range, the null marker otherwise. -/
def getIndex (v : JVal) (i : Nat) : JVal :=
  match v with
  | .arr xs => xs.getD i .null
  | _ => .null

/-- `simplejson.Json.Set`: update the map view in place; not a map, no-op. -/
def set (v : JVal) (key : String) (x : JVal) : JVal :=
  match v with
  | .obj fs => .obj (setField fs key x)
  | _ => v

/-- `simplejson.Json.Del`: delete from the map view; not a map, no-op. -/
def del (v : JVal) (key : String) : JVal :=
  match v with
  | .obj fs => .obj (removeField fs key)
  | _ => v

/-- `simplejson.Json.Array`'s type assertion (`none` is the error case). -/
def toArray : JVal → Option (List JVal)
  | .arr xs => some xs
  | _ => none

/-- `simplejson.Json.Map`'s type assertion (`none` is the error case). -/
def toMap : JVal → Option (List (String × JVal))
  | .obj fs => some fs
  | _ => none

/-- `simplejson.Json.Int`'s coercion (`none` is the error case). -/
def intVal : JVal → Option Int
  | .num n => some n
  | _ => none

/-- `simplejson.Json.Float64`'s coercion. -/
def floatVal : JVal → Option Float
  | .num n => some (Float.ofInt n)
  | _ => none

/-- `simplejson.Json.Bool`'s coercion. -/
def boolVal : JVal → Option Bool
  | .bool b => some b
  | _ => none

/-- `simplejson.Json.String`'s coercion. -/
def stringVal : JVal → Option String
  | .str s => some s
  | _ => none

/-- `simplejson.Json.Uint64`'s coercion (negative numbers fail to parse). -/
def uint64Val : JVal → Option Nat
  | .num n => if n < 0 then none else some n.toNat
  | _ => none

/-- `simplejson.Json.StringArray`'s coercion: an array whose elements are
strings (a null element becomes `""`). -/
def stringArrayVal : JVal → Option (List String)
  | .arr xs => xs.mapM (fun x => match x with
      | .null => some ""
      | .str s => some s
      | _ => none)
  | _ => none

end SimpleJson

/-! ## The wrapper type (src/betterjson.go) -/

/-- `betterjson.Json`: `value` is the `*simplejson.Json` pointer field,
`none` embedding the nil pointer (the empty state). -/
structure Json where
  value : Option JVal

/-- Outcome of a `Must`-accessor: `fatal` is the `log.Panicf` path
(abnormal termination), `ret` a normal return. -/
inductive MustOut (α : Type) where
  | fatal : MustOut α
  | ret (a : α) : MustOut α

/-- A Go `interface{}` argument as the wrapper's `Set`/`TryAdd` inspect it:
the untyped nil, a `*betterjson.Json`, a `*simplejson.Json`, or any other
value (embedded as the JSON tree it denotes). -/
inductive GoVal where
  | goNil : GoVal
  | wrapped (w : Json) : GoVal
  | simple (v : JVal) : GoVal
  | raw (v : JVal) : GoVal

namespace Json

/-- `NewEmpty`. -/
def NewEmpty : Json := ⟨none⟩

/-- `NewJSONObject` (`simplejson.New()` starts with an empty map). -/
def NewJSONObject : Json := ⟨some (.obj [])⟩

/-- `NewJSONArray` (`SetPath([]string{}, ...)` replaces the whole value by
an empty slice). -/
def NewJSONArray : Json := ⟨some (.arr [])⟩

/-- `IsEmpty`. -/
def IsEmpty (j : Json) : Bool := j.value.isNone

/-- `IsNullJson`: encode the held value and compare with the 4-byte literal
`null`.  On an empty wrapper the source dereferences its nil pointer
(`val.value.Encode()`), which panics: embedded as `none`. -/
def IsNullJson (j : Json) : Option Bool :=
  match j.value with
  | none => none
  | some v => some ((encodeV v).length == 4 && encodeV v == ['n', 'u', 'l', 'l'])

/-- `CheckGet` (lines 168-177): empty receiver flows through; a missing key
gives a fresh empty wrapper; a present key gives its value wrapped. -/
def CheckGet (j : Json) (key : String) : Json :=
  match j.value with
  | none => j
  | some v =>
    match SimpleJson.checkGet v key with
    | none => ⟨none⟩
    | some item => ⟨some item⟩

/-- `Get` (lines 256-258): `FromNotEmptySimpleJson(j.value.Get(key))` with
no empty-receiver guard — on an empty wrapper `j.value` is nil and the
method call dereferences it, a runtime panic, embedded as `none`. -/
def Get (j : Json) (key : String) : Option Json :=
  match j.value with
  | none => none
  | some v => some ⟨some (SimpleJson.get v key)⟩

/-- `GetIndex` (lines 278-280): same shape as `Get`, same missing guard. -/
def GetIndex (j : Json) (i : Nat) : Option Json :=
  match j.value with
  | none => none
  | some v => some ⟨some (SimpleJson.getIndex v i)⟩

/-- `Set` (lines 187-211). -/
def Set (j : Json) (key : String) (val : GoVal) : Json :=
  match j.value with
  | none => j
  | some v =>
    match val with
    | .goNil => ⟨some (SimpleJson.set v key .null)⟩
    | .wrapped w =>
      match w.value with
      | none => ⟨some (SimpleJson.set v key .null)⟩
      | some wv => ⟨some (SimpleJson.set v key wv)⟩
    | .simple sv => ⟨some (SimpleJson.set v key sv)⟩
    | .raw rv => ⟨some (SimpleJson.set v key rv)⟩

/-- `Del` (lines 243-249). -/
def Del (j : Json) (key : String) : Json :=
  match j.value with
  | none => j
  | some v => ⟨some (SimpleJson.del v key)⟩

/-- `Array` (lines 292-297): `none` is the error return. -/
def Array (j : Json) : Option (List JVal) :=
  match j.value with
  | none => none
  | some v => SimpleJson.toArray v

/-- `Map` (lines 284-289): `none` is the error return. -/
def Map (j : Json) : Option (List (String × JVal)) :=
  match j.value with
  | none => none
  | some v => SimpleJson.toMap v

/-- `TryAdd` (lines 531-548): only when the receiver holds an array; an
empty wrapper argument appends Go `nil` (the JSON null); a non-empty wrapper
or `*simplejson.Json` argument appends the tree it references; anything else
is appended as itself.  The final `SetPath([]string{}, jsonArray)` replaces
the whole held value by the extended array. -/
def TryAdd (j : Json) (val : GoVal) : Json :=
  match Array j with
  | none => j
  | some xs =>
    let elem : JVal :=
      match val with
      | .goNil => .null
      | .wrapped w =>
        match w.value with
        | none => .null
        | some wv => wv
      | .simple sv => sv
      | .raw rv => rv
    ⟨some (.arr (xs ++ [elem]))⟩

/-- `ArrayLength` (lines 550-556). -/
def ArrayLength (j : Json) : Nat :=
  match Array j with
  | none => 0
  | some xs => xs.length

/-- `ContainsKey` (lines 558-564). -/
def ContainsKey (j : Json) (key : String) : Bool :=
  match j.value with
  | none => false
  | some _ => !(CheckGet j key).IsEmpty

/-- The loop of `GetKeyValuesIfAllContains` (lines 106-115): `acc` is the
`result` object being built; the first missing key returns the fresh empty
inner object. -/
def getKeyValuesLoop (v : JVal) : List String → List (String × JVal) → Json
  | [], acc => ⟨some (.obj acc)⟩
  | key :: keys, acc =>
    match SimpleJson.checkGet v key with
    | none => ⟨some (.obj [])⟩
    | some item => getKeyValuesLoop v keys (setField acc key item)

/-- `GetKeyValuesIfAllContains` (lines 102-116). -/
def GetKeyValuesIfAllContains (j : Json) (keys : List String) : Json :=
  match j.value with
  | none => j
  | some v => getKeyValuesLoop v keys []

/-- `JsonKeyValueProcessor`. -/
def KVProcessor : Type := Json → String → Json → Json

/-- The loop of `TrampolineKeys` (lines 153-157), consuming keys and
processors in step (the arity check has already ensured enough processors). -/
def trampolineLoop (j : Json) : List String → List KVProcessor → Json → Json
  | [], _, acc => acc
  | _ :: _, [], acc => acc
  | key :: keys, p :: ps, acc => trampolineLoop j keys ps (p acc key (CheckGet j key))

/-- `TrampolineKeys` (lines 145-159): the error component models the
`errors.New` return. -/
def TrampolineKeys (j : Json) (keys : List String) (procs : List KVProcessor)
    (initJson : Json) : Json × Option String :=
  match j.value with
  | none => (initJson, none)
  | some _ =>
    if keys.length > procs.length then
      (initJson, some "keys count great than processor funcs count")
    else
      (trampolineLoop j keys procs initJson, none)

/-- `MustArray` (lines 337-343). -/
def MustArray (j : Json) (args : List (List JVal)) : MustOut (List JVal) :=
  match j.value with
  | none => .fatal
  | some v =>
    match args with
    | [] => .ret ((SimpleJson.toArray v).getD [])
    | [d] => .ret ((SimpleJson.toArray v).getD d)
    | _ => .fatal

/-- `MustMap` (lines 351-357). -/
def MustMap (j : Json) (args : List (List (String × JVal))) :
    MustOut (List (String × JVal)) :=
  match j.value with
  | none => .fatal
  | some v =>
    match args with
    | [] => .ret ((SimpleJson.toMap v).getD [])
    | [d] => .ret ((SimpleJson.toMap v).getD d)
    | _ => .fatal

/-- `MustString` (lines 363-369). -/
def MustString (j : Json) (args : List String) : MustOut String :=
  match j.value with
  | none => .fatal
  | some v =>
    match args with
    | [] => .ret ((SimpleJson.stringVal v).getD "")
    | [d] => .ret ((SimpleJson.stringVal v).getD d)
    | _ => .fatal

/-- `MustStringArray` (lines 377-383). -/
def MustStringArray (j : Json) (args : List (List String)) : MustOut (List String) :=
  match j.value with
  | none => .fatal
  | some v =>
    match args with
    | [] => .ret ((SimpleJson.stringArrayVal v).getD [])
    | [d] => .ret ((SimpleJson.stringArrayVal v).getD d)
    | _ => .fatal

/-- `MustInt` (lines 389-395). -/
def MustInt (j : Json) (args : List Int) : MustOut Int :=
  match j.value with
  | none => .fatal
  | some v =>
    match args with
    | [] => .ret ((SimpleJson.intVal v).getD 0)
    | [d] => .ret ((SimpleJson.intVal v).getD d)
    | _ => .fatal

/-- `MustFloat64` (lines 401-407). -/
def MustFloat64 (j : Json) (args : List Float) : MustOut Float :=
  match j.value with
  | none => .fatal
  | some v =>
    match args with
    | [] => .ret ((SimpleJson.floatVal v).getD 0)
    | [d] => .ret ((SimpleJson.floatVal v).getD d)
    | _ => .fatal

/-- `MustBool` (lines 413-419). -/
def MustBool (j : Json) (args : List Bool) : MustOut Bool :=
  match j.value with
  | none => .fatal
  | some v =>
    match args with
    | [] => .ret ((SimpleJson.boolVal v).getD false)
    | [d] => .ret ((SimpleJson.boolVal v).getD d)
    | _ => .fatal

/-- `MustInt64` (lines 425-431). -/
def MustInt64 (j : Json) (args : List Int) : MustOut Int :=
  match j.value with
  | none => .fatal
  | some v =>
    match args with
    | [] => .ret ((SimpleJson.intVal v).getD 0)
    | [d] => .ret ((SimpleJson.intVal v).getD d)
    | _ => .fatal

/-- `MustUint64` (lines 437-443). -/
def MustUint64 (j : Json) (args : List Nat) : MustOut Nat :=
  match j.value with
  | none => .fatal
  | some v =>
    match args with
    | [] => .ret ((SimpleJson.uint64Val v).getD 0)
    | [d] => .ret ((SimpleJson.uint64Val v).getD d)
    | _ => .fatal

/-- `DigestJSONForEqual` (lines 468-519): the empty wrapper digests to the
literal `nil`; a held tree digests through `digestV` (the wrapper recursion
always rewraps with `FromNotEmptySimpleJson`, so the inner recursion never
meets an empty wrapper). -/
def DigestJSONForEqual (j : Json) : String :=
  match j.value with
  | none => "nil"
  | some v => String.mk (digestV v)

/-- `IsSameJSONWith` (lines 522-528); the `Option` argument embeds the
possibly-nil `*Json` pointer `other`. -/
def IsSameJSONWith (j : Json) (other : Option Json) : Bool :=
  match other with
  | none => j.IsEmpty
  | some o =>
    if o.IsEmpty then j.IsEmpty
    else DigestJSONForEqual j == DigestJSONForEqual o

end Json

/-! ## Reference definitions for the theorems (spec-side folds, canonical
values, decoding helpers used only in proofs, and concrete fixtures) -/

/-- The left fold the spec describes for `TrampolineKeys`: `transforms[i]`
consumes `(accumulator, keys[i], receiver.CheckGet(keys[i]))` in key order.
Stated from the spec's words to compare the implementation against. -/
def trampolineSpecFold (j : Json) (keys : List String) (procs : List Json.KVProcessor)
    (initJson : Json) : Json :=
  (keys.zip procs).foldl (fun acc kp => kp.2 acc kp.1 (Json.CheckGet j kp.1)) initJson

/-- Canonical trees: the ones that arise as Go values (map keys strictly
sorted here as the canonical representative of the unordered map; a Go map
never holds a key twice).  Two distinct canonical trees are distinct as
JSON documents. -/
inductive Canon : JVal → Prop where
  | null : Canon .null
  | bool (b : Bool) : Canon (.bool b)
  | num (n : Int) : Canon (.num n)
  | str (s : String) : Canon (.str s)
  | arr (xs : List JVal) : (∀ x ∈ xs, Canon x) → Canon (.arr xs)
  | obj (fs : List (String × JVal)) : (∀ p ∈ fs, Canon p.2) →
      List.Chain' (fun a b => strLe a.1 b.1 = true ∧ a.1 ≠ b.1) fs → Canon (.obj fs)

/-- Numeric value of a digit string (proof helper for decimal decoding). -/
def digitsVal (l : List Char) : Nat :=
  l.foldl (fun a c => 10 * a + (c.toNat - 48)) 0

/-- Numeric value of a lower-case hex digit (proof helper). -/
def hexVal (c : Char) : Nat :=
  if c.toNat ≤ 57 then c.toNat - 48 else c.toNat - 87

/-- Decode a backslash escape (proof helper): the input is what follows the
backslash. -/
def decodeEscSlash : List Char → Option (Char × List Char)
  | [] => none
  | e :: t =>
    if e = 'u' then
      match t with
      | h1 :: h2 :: h3 :: h4 :: t2 =>
          some (Char.ofNat ((((hexVal h1) * 16 + hexVal h2) * 16 + hexVal h3) * 16 + hexVal h4), t2)
      | _ => none
    else if e = '"' then some ('"', t)
    else if e = '\\' then some ('\\', t)
    else if e = 'n' then some ('\n', t)
    else if e = 'r' then some ('\r', t)
    else if e = 't' then some ('\t', t)
    else none

/-- Decode one character of an escaped string-literal body (proof helper,
the inverse of `escChar`); `none` on a closing quote or malformed escape. -/
def decodeEsc : List Char → Option (Char × List Char)
  | [] => none
  | c :: t =>
    if c = '\\' then decodeEscSlash t
    else if c = '"' then none
    else some (c, t)

/-- Which top-level shape a digest's first character announces (proof
helper): 0 null, 1 boolean, 2 number, 3 string, 4 array, 5 object. -/
def charKind (c : Char) : Nat :=
  if c = 'n' then 0
  else if c = 't' ∨ c = 'f' then 1
  else if c = '-' ∨ isDigitChar c then 2
  else if c = '"' then 3
  else if c = '[' then 4
  else if c = '{' then 5
  else 6

/-- The shape of a tree node, matching `charKind` of its digest's head. -/
def kindOf : JVal → Nat
  | .null => 0
  | .bool _ => 1
  | .num _ => 2
  | .str _ => 3
  | .arr _ => 4
  | .obj _ => 5

/-- The text after a digest never starts with a digit (a digest ends a
number maximally; inside composites the next character is a separator or a
closing bracket). -/
def NonDigitStart : List Char → Prop
  | [] => True
  | c :: _ => isDigitChar c = false

/-- Determinism of the digest at one tree (proof helper): the digest of `x`
followed by text that does not start with a digit determines `x` and the
text. -/
def DetAt (x : JVal) : Prop :=
  ∀ v2 : JVal, Canon x → Canon v2 → ∀ r1 r2 : List Char,
    NonDigitStart r1 → NonDigitStart r2 →
    digestV x ++ r1 = digestV v2 ++ r2 → x = v2 ∧ r1 = r2

/-- Fixture: the counting processor of the repository's `TrampolineKeys`
test (advances a numeric accumulator by one, ignoring key and value). -/
def countProcessor : Json.KVProcessor :=
  fun acc _ _ =>
    match acc.value with
    | some (.num n) => ⟨some (.num (n + 1))⟩
    | _ => acc

/-- Fixture: the document of the repository's tests, as held by the
underlying library after the test's `Set` calls. -/
def testDoc : JVal :=
  .obj [("hello", .str "world"),
        ("hi", .obj [("age", .num 18), ("items", .arr [.num 1, .null, .str "China"])]),
        ("times", .num 123),
        ("a", .str "head")]

/-! ## Basic lemmas about the association-list (Go map) embedding -/

theorem lookupField_setField_self (acc : List (String × JVal)) (k : String) (x : JVal) :
    lookupField (setField acc k x) k = some x := by
  induction acc with
  | nil => simp [setField, lookupField]
  | cons p t ih =>
      obtain ⟨k2, w⟩ := p
      by_cases h : k2 = k
      · subst h; simp [setField, lookupField]
      · simp [setField, h, lookupField, ih]

theorem lookupField_setField_ne (acc : List (String × JVal)) (k k' : String) (x : JVal)
    (h : k' ≠ k) : lookupField (setField acc k x) k' = lookupField acc k' := by
  have hks : k ≠ k' := fun hh => h hh.symm
  induction acc with
  | nil => simp [setField, lookupField, hks]
  | cons p t ih =>
      obtain ⟨k2, w⟩ := p
      by_cases h2 : k2 = k
      · subst h2
        simp [setField, lookupField, hks]
      · by_cases h3 : k2 = k'
        · subst h3
          simp [setField, lookupField, h2]
        · simp [setField, lookupField, h2, h3, ih]

theorem trampolineLoop_eq_specFold (j : Json) (keys : List String)
    (procs : List Json.KVProcessor) (acc : Json) :
    Json.trampolineLoop j keys procs acc = trampolineSpecFold j keys procs acc := by
  induction keys generalizing procs acc with
  | nil => cases procs <;> rfl
  | cons k ks ih =>
      cases procs with
      | nil => rfl
      | cons p ps =>
          simpa [Json.trampolineLoop, trampolineSpecFold] using
            ih ps (p acc k (Json.CheckGet j k))

/-! ## C2: absent key on a held object -/

/-- C2: for a receiver holding a non-empty JSON object and a key absent from
it, `Get` returns a wrapper holding the JSON null literal (`IsNullJson` is
true on it) and `CheckGet` returns the empty state. -/
theorem c2_absent_key_get_null_checkGet_empty (l : List (String × JVal)) (key : String)
    (hne : l ≠ []) (habs : lookupField l key = none) :
    Json.Get ⟨some (.obj l)⟩ key = some ⟨some JVal.null⟩
    ∧ Json.IsNullJson ⟨some JVal.null⟩ = some true
    ∧ Json.CheckGet ⟨some (.obj l)⟩ key = ⟨none⟩
    ∧ (Json.CheckGet ⟨some (.obj l)⟩ key).IsEmpty = true := by
  refine ⟨?_, rfl, ?_, ?_⟩
  · simp [Json.Get, SimpleJson.get, SimpleJson.checkGet, habs]
  · simp [Json.CheckGet, SimpleJson.checkGet, habs]
  · simp [Json.CheckGet, SimpleJson.checkGet, habs, Json.IsEmpty]

/-- C2 witness at `{"a": 1}` and the absent key `"b"`. -/
theorem c2_witness :
    ([("a", JVal.num 1)] ≠ ([] : List (String × JVal)))
    ∧ lookupField [("a", JVal.num 1)] "b" = none
    ∧ Json.Get ⟨some (.obj [("a", JVal.num 1)])⟩ "b" = some ⟨some JVal.null⟩
    ∧ (Json.CheckGet ⟨some (.obj [("a", JVal.num 1)])⟩ "b").IsEmpty = true := by
  have h := c2_absent_key_get_null_checkGet_empty [("a", JVal.num 1)] "b"
    (by simp) (by simp [lookupField])
  exact ⟨by simp, by simp [lookupField], h.1, h.2.2.2⟩

/-! ## C3: Must-accessors on the empty state -/

/-- C3 counterexample: `MustInt` on the empty state with the default `5`
terminates abnormally (the source checks `IsEmpty` and panics before ever
looking at the default), so it does not return the supplied default. -/
theorem c3_counterexample_mustint_default_still_fatal :
    Json.MustInt ⟨none⟩ [5] = MustOut.fatal
    ∧ Json.MustInt ⟨none⟩ [5] ≠ MustOut.ret (5 : Int) :=
  ⟨rfl, fun h => by simp [Json.MustInt] at h⟩

/-- C3 amended: every Must-accessor invoked on an empty receiver terminates
abnormally, whether or not a default argument is supplied. -/
theorem c3_amended_must_on_empty_always_fatal :
    (∀ args, Json.MustInt ⟨none⟩ args = MustOut.fatal)
    ∧ (∀ args, Json.MustFloat64 ⟨none⟩ args = MustOut.fatal)
    ∧ (∀ args, Json.MustBool ⟨none⟩ args = MustOut.fatal)
    ∧ (∀ args, Json.MustString ⟨none⟩ args = MustOut.fatal)
    ∧ (∀ args, Json.MustInt64 ⟨none⟩ args = MustOut.fatal)
    ∧ (∀ args, Json.MustUint64 ⟨none⟩ args = MustOut.fatal)
    ∧ (∀ args, Json.MustMap ⟨none⟩ args = MustOut.fatal)
    ∧ (∀ args, Json.MustArray ⟨none⟩ args = MustOut.fatal)
    ∧ (∀ args, Json.MustStringArray ⟨none⟩ args = MustOut.fatal) :=
  ⟨fun _ => rfl, fun _ => rfl, fun _ => rfl, fun _ => rfl, fun _ => rfl,
   fun _ => rfl, fun _ => rfl, fun _ => rfl, fun _ => rfl⟩

/-! ## C4: `Get`/`GetIndex` on the empty state dereference a nil pointer -/

/-- C4: on an empty receiver, `Get` and `GetIndex` call a method on the nil
`*simplejson.Json` pointer, whose body reads `j.data` — a nil-pointer
dereference, i.e. a runtime panic (embedded as `none`) — for every key and
index; the claimed null-holding result is never produced. -/
theorem c4_get_getindex_on_empty_panic :
    (∀ key, Json.Get ⟨none⟩ key = none)
    ∧ (∀ i, Json.GetIndex ⟨none⟩ i = none)
    ∧ Json.Get ⟨none⟩ "k" ≠ some ⟨some JVal.null⟩ :=
  ⟨fun _ => rfl, fun _ => rfl, fun h => by simp [Json.Get] at h⟩

/-! ## C8: mutators on the empty state are no-ops -/

/-- C8: `Set`, `Del` and `TryAdd` on an empty receiver return the receiver
itself, still empty; no underlying storage exists to be touched (each
guard returns before reaching the underlying library). -/
theorem c8_empty_set_del_tryadd_noop :
    (∀ key val, Json.Set ⟨none⟩ key val = ⟨none⟩)
    ∧ (∀ key, Json.Del ⟨none⟩ key = ⟨none⟩)
    ∧ (∀ val, Json.TryAdd ⟨none⟩ val = ⟨none⟩)
    ∧ (∀ key val, (Json.Set ⟨none⟩ key val).IsEmpty = true)
    ∧ (∀ key, (Json.Del ⟨none⟩ key).IsEmpty = true)
    ∧ (∀ val, (Json.TryAdd ⟨none⟩ val).IsEmpty = true) :=
  ⟨fun _ _ => rfl, fun _ => rfl, fun _ => rfl,
   fun _ _ => rfl, fun _ => rfl, fun _ => rfl⟩

/-! ## C9: the empty short-circuit of `TrampolineKeys` beats the arity check -/

/-- C9: on an empty receiver `TrampolineKeys` returns `(initial, no error)`
even when there are more keys than processors: the empty check comes first,
so the arity mismatch is never reported. -/
theorem c9_trampoline_empty_shortcircuit (keys : List String)
    (procs : List Json.KVProcessor) (initJson : Json)
    (h : keys.length > procs.length) :
    Json.TrampolineKeys ⟨none⟩ keys procs initJson = (initJson, none) := rfl

/-- C9 witness: one key, no processors. -/
theorem c9_witness :
    (["a"] : List String).length > ([] : List Json.KVProcessor).length
    ∧ Json.TrampolineKeys ⟨none⟩ ["a"] [] ⟨some (.num 0)⟩ = (⟨some (.num 0)⟩, none) :=
  ⟨by simp, c9_trampoline_empty_shortcircuit ["a"] [] ⟨some (.num 0)⟩ (by simp)⟩

/-! ## C10: `TryAdd` of an empty wrapper appends the JSON null literal -/

/-- C10: on a receiver holding an array, `TryAdd` of an empty wrapper
appends the JSON null (not a no-op, not an empty marker): the length grows
by one and the new last element digests as `null`. -/
theorem c10_tryadd_empty_wrapper_appends_null (xs : List JVal) :
    Json.TryAdd ⟨some (.arr xs)⟩ (GoVal.wrapped ⟨none⟩) = ⟨some (.arr (xs ++ [JVal.null]))⟩
    ∧ Json.ArrayLength (Json.TryAdd ⟨some (.arr xs)⟩ (GoVal.wrapped ⟨none⟩)) = xs.length + 1
    ∧ Json.GetIndex (Json.TryAdd ⟨some (.arr xs)⟩ (GoVal.wrapped ⟨none⟩)) xs.length
        = some ⟨some JVal.null⟩
    ∧ Json.DigestJSONForEqual ⟨some JVal.null⟩ = "null" := by
  refine ⟨rfl, ?_, ?_, rfl⟩
  · simp [Json.TryAdd, Json.Array, SimpleJson.toArray, Json.ArrayLength]
  · simp [Json.TryAdd, Json.Array, SimpleJson.toArray, Json.GetIndex, SimpleJson.getIndex,
      List.getD_eq_getElem?_getD, List.getElem?_concat_length]

/-! ## C6: `GetKeyValuesIfAllContains` -/

theorem getKeyValuesLoop_all_present (v : JVal) (ks : List String)
    (acc : List (String × JVal))
    (hall : ∀ k ∈ ks, (SimpleJson.checkGet v k).isSome) :
    ∃ fields, Json.getKeyValuesLoop v ks acc = ⟨some (.obj fields)⟩
      ∧ ∀ k, lookupField fields k =
          if k ∈ ks then SimpleJson.checkGet v k else lookupField acc k := by
  induction ks generalizing acc with
  | nil => exact ⟨acc, rfl, by simp⟩
  | cons key ks ih =>
      have hk : (SimpleJson.checkGet v key).isSome = true := hall key (by simp)
      obtain ⟨item, hitem⟩ := Option.isSome_iff_exists.mp hk
      obtain ⟨fields, hf, hlook⟩ :=
        ih (setField acc key item) (fun k hk2 => hall k (by simp [hk2]))
      refine ⟨fields, ?_, ?_⟩
      · simpa [Json.getKeyValuesLoop, hitem] using hf
      · intro k
        rw [hlook k]
        by_cases hmem : k ∈ ks
        · simp [hmem, List.mem_cons]
        · by_cases hkey : k = key
          · subst hkey
            simp [hmem, lookupField_setField_self, hitem.symm]
          · simp [hmem, hkey, lookupField_setField_ne _ _ _ _ hkey]

theorem getKeyValuesLoop_missing (v : JVal) (ks : List String)
    (acc : List (String × JVal))
    (hmiss : ∃ k ∈ ks, SimpleJson.checkGet v k = none) :
    Json.getKeyValuesLoop v ks acc = ⟨some (.obj [])⟩ := by
  induction ks generalizing acc with
  | nil => simp at hmiss
  | cons key ks ih =>
      cases hit : SimpleJson.checkGet v key with
      | none => simp [Json.getKeyValuesLoop, hit]
      | some item =>
          obtain ⟨k0, hk0mem, hk0⟩ := hmiss
          rcases List.mem_cons.mp hk0mem with h1 | h2
          · subst h1; rw [hk0] at hit; cases hit
          · simpa [Json.getKeyValuesLoop, hit] using ih (setField acc key item) ⟨k0, h2, hk0⟩

/-- C6 counterexample: on an *empty* receiver the source returns the
receiver itself — the Empty state — not a valid-but-empty object, so the
claim's "for every receiver ... never the Empty state" fails. -/
theorem c6_counterexample_empty_receiver :
    Json.GetKeyValuesIfAllContains ⟨none⟩ ["a"] = ⟨none⟩
    ∧ (Json.GetKeyValuesIfAllContains ⟨none⟩ ["a"]).IsEmpty = true :=
  ⟨rfl, rfl⟩

/-- C6 amended: for every *non-empty* receiver, `GetKeyValuesIfAllContains`
returns a (never empty-state) wrapper holding an object: when every
requested key is present, the object holds exactly the requested keys with
their values copied from the receiver; otherwise it is the empty object,
on which `ContainsKey` is false for every key. -/
theorem c6_amended_nonempty_receiver (v : JVal) (keys : List String) :
    (Json.GetKeyValuesIfAllContains ⟨some v⟩ keys).IsEmpty = false
    ∧ ((∀ k ∈ keys, (SimpleJson.checkGet v k).isSome) →
        ∃ fields, Json.GetKeyValuesIfAllContains ⟨some v⟩ keys = ⟨some (.obj fields)⟩
          ∧ ∀ k, lookupField fields k =
              if k ∈ keys then SimpleJson.checkGet v k else none)
    ∧ ((¬ ∀ k ∈ keys, (SimpleJson.checkGet v k).isSome) →
        Json.GetKeyValuesIfAllContains ⟨some v⟩ keys = ⟨some (.obj [])⟩
          ∧ ∀ k, Json.ContainsKey (Json.GetKeyValuesIfAllContains ⟨some v⟩ keys) k = false) := by
  have hout : ∀ hh : ¬ ∀ k ∈ keys, (SimpleJson.checkGet v k).isSome,
      Json.GetKeyValuesIfAllContains ⟨some v⟩ keys = ⟨some (.obj [])⟩ := by
    intro hh
    obtain ⟨k0, hk0mem, hk0⟩ := by simpa using hh
    exact getKeyValuesLoop_missing v keys [] ⟨k0, hk0mem, hk0⟩
  refine ⟨?_, ?_, ?_⟩
  · by_cases hall : ∀ k ∈ keys, (SimpleJson.checkGet v k).isSome
    · obtain ⟨fields, hf, _⟩ := getKeyValuesLoop_all_present v keys [] hall
      have h2 : Json.GetKeyValuesIfAllContains ⟨some v⟩ keys = ⟨some (.obj fields)⟩ := hf
      simp [h2, Json.IsEmpty]
    · simp [hout hall, Json.IsEmpty]
  · intro hall
    obtain ⟨fields, hf, hlook⟩ := getKeyValuesLoop_all_present v keys [] hall
    exact ⟨fields, hf, by simpa [lookupField] using hlook⟩
  · intro hh
    refine ⟨hout hh, ?_⟩
    intro k
    simp [hout hh, Json.ContainsKey, Json.CheckGet, SimpleJson.checkGet, lookupField,
      Json.IsEmpty]

/-- C6 witness: a present key and an absent key, on `{"a":1,"b":2}`. -/
theorem c6_witness :
    (Json.GetKeyValuesIfAllContains ⟨some (.obj [("a", JVal.num 1), ("b", JVal.num 2)])⟩
        ["b"]).IsEmpty = false
    ∧ Json.GetKeyValuesIfAllContains ⟨some (.obj [("a", JVal.num 1), ("b", JVal.num 2)])⟩
        ["a", "zz"] = ⟨some (.obj [])⟩ := by
  refine ⟨(c6_amended_nonempty_receiver (.obj [("a", JVal.num 1), ("b", JVal.num 2)]) ["b"]).1, ?_⟩
  refine ((c6_amended_nonempty_receiver (.obj [("a", JVal.num 1), ("b", JVal.num 2)])
    ["a", "zz"]).2.2 ?_).1
  intro hall
  simpa [SimpleJson.checkGet, lookupField] using hall "zz" (by simp)

/-! ## C7: `TrampolineKeys` on a non-empty receiver -/

/-- C7: on a non-empty receiver, `TrampolineKeys` reports the distinct arity
error (returning the initial accumulator with it) when there are more keys
than processors, before invoking any processor; otherwise it returns, with
no error, the left fold in which `transforms[i]` consumes
`(accumulator, keys[i], receiver.CheckGet(keys[i]))` in key order — each
processor invoked exactly once per key, whatever the keys' values. -/
theorem c7_trampoline_arity_and_fold (j : Json) (keys : List String)
    (procs : List Json.KVProcessor) (initJson : Json) (hne : j.IsEmpty = false) :
    (keys.length > procs.length →
       Json.TrampolineKeys j keys procs initJson =
         (initJson, some "keys count great than processor funcs count"))
    ∧ (keys.length ≤ procs.length →
       Json.TrampolineKeys j keys procs initJson =
         (trampolineSpecFold j keys procs initJson, none)) := by
  obtain ⟨v⟩ := j
  cases v with
  | none => simp [Json.IsEmpty] at hne
  | some v =>
      constructor
      · intro hgt
        simp [Json.TrampolineKeys, hgt]
      · intro hle
        simp [Json.TrampolineKeys, Nat.not_lt.mpr hle, trampolineLoop_eq_specFold]

/-- C7 witness: the repository test's call — keys `["age","hello"]` (the
first absent at top level, so its `CheckGet` is empty) with two counting
processors advance the accumulator exactly twice; and one key with no
processors reports the arity error. -/
theorem c7_witness :
    Json.TrampolineKeys ⟨some testDoc⟩ ["age", "hello"] [countProcessor, countProcessor]
        ⟨some (.num 0)⟩ = (⟨some (.num 2)⟩, none)
    ∧ Json.TrampolineKeys ⟨some testDoc⟩ ["hello"] [] ⟨some (.num 0)⟩
        = (⟨some (.num 0)⟩, some "keys count great than processor funcs count") := by
  constructor
  · have h := (c7_trampoline_arity_and_fold ⟨some testDoc⟩ ["age", "hello"]
      [countProcessor, countProcessor] ⟨some (.num 0)⟩ rfl).2 (by simp)
    rw [h]
    rfl
  · exact (c7_trampoline_arity_and_fold ⟨some testDoc⟩ ["hello"] [] ⟨some (.num 0)⟩ rfl).1
      (by simp)

/-! ## Digest machinery 1: fuel bounds and unfolding equations -/

theorem jsize_pos (v : JVal) : 1 ≤ jsize v := by
  cases v <;> simp only [jsize] <;> omega

theorem jsize_le_of_mem {x : JVal} {xs : List JVal} (h : x ∈ xs) : jsize x ≤ jsizeL xs := by
  induction xs with
  | nil => cases h
  | cons y ys ih =>
      rcases List.mem_cons.mp h with h1 | h2
      · subst h1; simp only [jsizeL]; omega
      · have := ih h2; simp only [jsizeL]; omega

theorem jsize_snd_le_of_mem {p : String × JVal} {fs : List (String × JVal)}
    (h : p ∈ fs) : jsize p.2 ≤ jsizeF fs := by
  induction fs with
  | nil => cases h
  | cons q t ih =>
      obtain ⟨k2, w⟩ := q
      rcases List.mem_cons.mp h with h1 | h2
      · subst h1; simp only [jsizeF]; omega
      · have := ih h2; simp only [jsizeF]; omega

theorem mem_sortStrings {a : String} {l : List String} : a ∈ sortStrings l ↔ a ∈ l :=
  (List.perm_insertionSort _ l).mem_iff

theorem lookupD_jsize_le {fs : List (String × JVal)} {k : String}
    (h : k ∈ fs.map Prod.fst) : jsize (lookupD fs k) ≤ jsizeF fs := by
  induction fs with
  | nil => simp at h
  | cons p t ih =>
      obtain ⟨k2, w⟩ := p
      by_cases h2 : k2 = k
      · subst h2
        simp [lookupD, lookupField, jsizeF]
        omega
      · have hmem : k ∈ t.map Prod.fst := by
          simp only [List.map_cons] at h
          rcases List.mem_cons.mp h with h3 | h4
          · exact absurd h3.symm h2
          · exact h4
        have ht := ih hmem
        simp only [lookupD, lookupField, if_neg h2, jsizeF]
        simp only [lookupD] at ht
        omega

theorem digestF_congr : ∀ (f1 f2 : Nat) (v : JVal), jsize v ≤ f1 → jsize v ≤ f2 →
    digestF f1 v = digestF f2 v := by
  intro f1
  induction f1 with
  | zero => intro f2 v h1 _; have := jsize_pos v; omega
  | succ f1 ih =>
      intro f2 v h1 h2
      cases f2 with
      | zero => have := jsize_pos v; omega
      | succ f2 =>
          cases v with
          | null => rfl
          | bool b => rfl
          | num n => rfl
          | str s => rfl
          | arr xs =>
              simp only [digestF]
              simp only [jsize] at h1 h2
              have hmap : xs.map (digestF f1) = xs.map (digestF f2) := by
                apply List.map_congr_left
                intro x hx
                have hb := jsize_le_of_mem hx
                exact ih f2 x (by omega) (by omega)
              rw [hmap]
          | obj fs =>
              simp only [digestF]
              simp only [jsize] at h1 h2
              have hmap : (sortStrings (fs.map Prod.fst)).map
                    (fun k => encStrChars k ++ ':' :: digestF f1 (lookupD fs k))
                  = (sortStrings (fs.map Prod.fst)).map
                    (fun k => encStrChars k ++ ':' :: digestF f2 (lookupD fs k)) := by
                apply List.map_congr_left
                intro k hk
                have hb := lookupD_jsize_le (mem_sortStrings.mp hk)
                rw [ih f2 _ (by omega) (by omega)]
              rw [hmap]

theorem digestV_null : digestV .null = ['n', 'u', 'l', 'l'] := rfl

theorem digestV_bool (b : Bool) :
    digestV (.bool b) = if b then ['t', 'r', 'u', 'e'] else ['f', 'a', 'l', 's', 'e'] := by
  cases b <;> rfl

theorem digestV_num (n : Int) : digestV (.num n) = intChars n := rfl

theorem digestV_str (s : String) : digestV (.str s) = encStrChars s := rfl

theorem digestV_arr (xs : List JVal) :
    digestV (.arr xs) = '[' :: joinComma (xs.map digestV) ++ [']'] := by
  have h0 : digestV (.arr xs) = digestF (jsizeL xs + 1) (.arr xs) := by
    show digestF (jsize (JVal.arr xs)) (JVal.arr xs) = _
    have h1 : jsize (JVal.arr xs) = jsizeL xs + 1 := by simp only [jsize]; omega
    rw [h1]
  rw [h0]
  simp only [digestF]
  have hmap : xs.map (digestF (jsizeL xs)) = xs.map digestV := by
    apply List.map_congr_left
    intro x hx
    exact digestF_congr _ _ x (jsize_le_of_mem hx) (le_refl _)
  rw [hmap]

theorem digestV_obj (fs : List (String × JVal)) :
    digestV (.obj fs) = '{' :: joinComma ((sortStrings (fs.map Prod.fst)).map
      (fun k => encStrChars k ++ ':' :: digestV (lookupD fs k))) ++ ['}'] := by
  have h0 : digestV (.obj fs) = digestF (jsizeF fs + 1) (.obj fs) := by
    show digestF (jsize (JVal.obj fs)) (JVal.obj fs) = _
    have h1 : jsize (JVal.obj fs) = jsizeF fs + 1 := by simp only [jsize]; omega
    rw [h1]
  rw [h0]
  simp only [digestF]
  have hmap : (sortStrings (fs.map Prod.fst)).map
        (fun k => encStrChars k ++ ':' :: digestF (jsizeF fs) (lookupD fs k))
      = (sortStrings (fs.map Prod.fst)).map
        (fun k => encStrChars k ++ ':' :: digestV (lookupD fs k)) := by
    apply List.map_congr_left
    intro k hk
    rw [digestF_congr _ _ _ (lookupD_jsize_le (mem_sortStrings.mp hk)) (le_refl _)]
    rfl
  rw [hmap]

/-! ## Digest machinery 2: decimal rendering is uniquely decodable -/

theorem natCharsAux_append (fuel : Nat) : ∀ (n : Nat) (acc : List Char),
    natCharsAux fuel n acc = natCharsAux fuel n [] ++ acc := by
  induction fuel with
  | zero => intro n acc; rfl
  | succ fuel ih =>
      intro n acc
      by_cases h : n = 0
      · simp [natCharsAux, h]
      · simp only [natCharsAux, if_neg h]
        rw [ih (n / 10) (digitChar (n % 10) :: acc), ih (n / 10) [digitChar (n % 10)]]
        simp

theorem natCharsAux_fuel : ∀ (n f1 f2 : Nat), n ≤ f1 → n ≤ f2 →
    natCharsAux f1 n [] = natCharsAux f2 n [] := by
  intro n
  induction n using Nat.strong_induction_on with
  | _ n ih =>
      intro f1 f2 h1 h2
      by_cases h : n = 0
      · subst h
        cases f1 <;> cases f2 <;> simp [natCharsAux]
      · obtain ⟨g1, rfl⟩ : ∃ g1, f1 = g1 + 1 := ⟨f1 - 1, by omega⟩
        obtain ⟨g2, rfl⟩ : ∃ g2, f2 = g2 + 1 := ⟨f2 - 1, by omega⟩
        simp only [natCharsAux, if_neg h]
        rw [natCharsAux_append g1, natCharsAux_append g2]
        have hd : n / 10 < n := Nat.div_lt_self (by omega) (by omega)
        rw [ih (n / 10) hd g1 g2 (by omega) (by omega)]

theorem isDigitChar_digitChar : ∀ d : Nat, d < 10 → isDigitChar (digitChar d) = true := by
  decide

theorem digitChar_val : ∀ d : Nat, d < 10 → (digitChar d).toNat - 48 = d := by
  decide

theorem natCharsAux_digits (fuel : Nat) : ∀ n, ∀ c ∈ natCharsAux fuel n [],
    isDigitChar c = true := by
  induction fuel with
  | zero => intro n c hc; simp [natCharsAux] at hc
  | succ fuel ih =>
      intro n c hc
      by_cases h : n = 0
      · simp [natCharsAux, h] at hc
      · simp only [natCharsAux, if_neg h] at hc
        rw [natCharsAux_append] at hc
        rcases List.mem_append.mp hc with h1 | h2
        · exact ih (n / 10) c h1
        · have hc2 : c = digitChar (n % 10) := by simpa using h2
          subst hc2
          exact isDigitChar_digitChar _ (Nat.mod_lt _ (by omega))

theorem natChars_digits (n : Nat) : ∀ c ∈ natChars n, isDigitChar c = true := by
  intro c hc
  by_cases h : n = 0
  · subst h
    simp [natChars] at hc
    subst hc
    decide
  · simp only [natChars, if_neg h] at hc
    exact natCharsAux_digits n n c hc

theorem natChars_ne_nil (n : Nat) : natChars n ≠ [] := by
  by_cases h : n = 0
  · subst h; simp [natChars]
  · simp only [natChars, if_neg h]
    obtain ⟨g, hg⟩ : ∃ g, n = g + 1 := ⟨n - 1, by omega⟩
    rw [hg]
    simp only [natCharsAux, Nat.succ_ne_zero, if_neg (by omega : ¬ g + 1 = 0)]
    rw [natCharsAux_append]
    intro hcontra
    exact absurd (List.append_eq_nil.mp hcontra).2 (by simp)

theorem natCharsAux_val : ∀ (n fuel : Nat), n ≤ fuel → ∀ a : Nat,
    List.foldl (fun a c => 10 * a + (c.toNat - 48)) a (natCharsAux fuel n [])
      = a * 10 ^ (natCharsAux fuel n []).length + n := by
  intro n
  induction n using Nat.strong_induction_on with
  | _ n ih =>
      intro fuel hf a
      by_cases h : n = 0
      · subst h; cases fuel <;> simp [natCharsAux]
      · obtain ⟨g, rfl⟩ : ∃ g, fuel = g + 1 := ⟨fuel - 1, by omega⟩
        simp only [natCharsAux, if_neg h]
        rw [natCharsAux_append, List.foldl_append, List.length_append]
        have hb := ih (n / 10) (Nat.div_lt_self (by omega) (by omega)) g (by omega) a
        simp only [List.foldl_cons, List.foldl_nil, List.length_cons, List.length_nil]
        rw [hb, digitChar_val _ (Nat.mod_lt _ (by omega))]
        calc 10 * (a * 10 ^ (natCharsAux g (n / 10) []).length + n / 10) + n % 10
            = a * 10 ^ ((natCharsAux g (n / 10) []).length + (0 + 1))
              + (10 * (n / 10) + n % 10) := by ring
          _ = a * 10 ^ ((natCharsAux g (n / 10) []).length + (0 + 1)) + n := by
              rw [Nat.div_add_mod]

theorem digitsVal_natChars (n : Nat) : digitsVal (natChars n) = n := by
  by_cases h : n = 0
  · subst h; decide
  · simp only [natChars, if_neg h, digitsVal]
    simpa using natCharsAux_val n n (le_refl n) 0

theorem natChars_inj {m n : Nat} (h : natChars m = natChars n) : m = n := by
  have hm := digitsVal_natChars m
  have hn := digitsVal_natChars n
  rw [h] at hm
  omega

theorem digitBlock_det : ∀ (d1 d2 r1 r2 : List Char),
    (∀ c ∈ d1, isDigitChar c = true) → (∀ c ∈ d2, isDigitChar c = true) →
    NonDigitStart r1 → NonDigitStart r2 → d1 ++ r1 = d2 ++ r2 → d1 = d2 ∧ r1 = r2 := by
  intro d1
  induction d1 with
  | nil =>
      intro d2 r1 r2 _ hd2 hr1 _ heq
      cases d2 with
      | nil => exact ⟨rfl, by simpa using heq⟩
      | cons c t =>
          simp only [List.nil_append, List.cons_append] at heq
          subst heq
          have hct := hd2 c (by simp)
          simp only [NonDigitStart] at hr1
          rw [hct] at hr1
          cases hr1
  | cons a t1 ih =>
      intro d2 r1 r2 hd1 hd2 hr1 hr2 heq
      cases d2 with
      | nil =>
          simp only [List.cons_append, List.nil_append] at heq
          have hct := hd1 a (by simp)
          rw [← heq] at hr2
          simp only [NonDigitStart] at hr2
          rw [hct] at hr2
          cases hr2
      | cons b t2 =>
          simp only [List.cons_append, List.cons.injEq] at heq
          obtain ⟨hab, hrest⟩ := heq
          subst hab
          obtain ⟨ht, hr⟩ := ih t2 r1 r2 (fun c hc => hd1 c (by simp [hc]))
            (fun c hc => hd2 c (by simp [hc])) hr1 hr2 hrest
          exact ⟨by rw [ht], hr⟩

theorem intChars_det {n1 n2 : Int} {r1 r2 : List Char}
    (hr1 : NonDigitStart r1) (hr2 : NonDigitStart r2)
    (heq : intChars n1 ++ r1 = intChars n2 ++ r2) : n1 = n2 ∧ r1 = r2 := by
  have hmdig : isDigitChar '-' = false := by decide
  have hsign : ∀ (m1 m2 : Int) (s1 s2 : List Char), m1 < 0 → ¬ m2 < 0 →
      ('-' :: natChars m1.natAbs) ++ s1 = natChars m2.natAbs ++ s2 → False := by
    intro m1 m2 s1 s2 _ _ he
    cases hnc : natChars m2.natAbs with
    | nil => exact absurd hnc (natChars_ne_nil _)
    | cons c t =>
        rw [hnc] at he
        simp only [List.cons_append, List.cons.injEq] at he
        have hcd : isDigitChar c = true := natChars_digits _ c (by rw [hnc]; simp)
        rw [← he.1] at hcd
        rw [hmdig] at hcd
        cases hcd
  by_cases h1 : n1 < 0 <;> by_cases h2 : n2 < 0
  · simp only [intChars, if_pos h1, if_pos h2, List.cons_append, List.cons.injEq] at heq
    obtain ⟨hd, hr⟩ := digitBlock_det _ _ _ _ (natChars_digits _) (natChars_digits _)
      hr1 hr2 heq.2
    have := natChars_inj hd
    exact ⟨by omega, hr⟩
  · exact absurd (by simpa only [intChars, if_pos h1, if_neg h2] using heq)
      (fun he => hsign n1 n2 r1 r2 h1 h2 he)
  · exact absurd (by simpa only [intChars, if_pos h2, if_neg h1] using heq.symm)
      (fun he => hsign n2 n1 r2 r1 h2 h1 he)
  · simp only [intChars, if_neg h1, if_neg h2] at heq
    obtain ⟨hd, hr⟩ := digitBlock_det _ _ _ _ (natChars_digits _) (natChars_digits _)
      hr1 hr2 heq
    have := natChars_inj hd
    exact ⟨by omega, hr⟩

/-! ## Digest machinery 3: string escaping is uniquely decodable -/

theorem hexVal_hexChar : ∀ d : Nat, d < 16 → hexVal (hexChar d) = d := by
  decide

theorem escChar_decode (c : Char) (t : List Char) :
    decodeEsc (escChar c ++ t) = some (c, t) := by
  by_cases h1 : c = '"'
  · subst h1; rfl
  by_cases h2 : c = '\\'
  · subst h2; rfl
  by_cases h3 : c = '\n'
  · subst h3; rfl
  by_cases h4 : c = '\r'
  · subst h4; rfl
  by_cases h5 : c = '\t'
  · subst h5; rfl
  by_cases h6 : c.toNat < 32
  · have hesc : escChar c
        = ['\\', 'u', '0', '0', hexChar (c.toNat / 16), hexChar (c.toNat % 16)] := by
      simp only [escChar, if_neg h1, if_neg h2, if_neg h3, if_neg h4, if_neg h5, if_pos h6]
    rw [hesc]
    have hrfl : decodeEsc
          ('\\' :: 'u' :: '0' :: '0' :: hexChar (c.toNat / 16) :: hexChar (c.toNat % 16) :: t)
        = some (Char.ofNat ((((hexVal '0') * 16 + hexVal '0') * 16
            + hexVal (hexChar (c.toNat / 16))) * 16 + hexVal (hexChar (c.toNat % 16))), t) := rfl
    rw [show (['\\', 'u', '0', '0', hexChar (c.toNat / 16), hexChar (c.toNat % 16)] ++ t)
        = '\\' :: 'u' :: '0' :: '0' :: hexChar (c.toNat / 16) :: hexChar (c.toNat % 16) :: t
      from rfl]
    rw [hrfl, hexVal_hexChar _ (by omega), hexVal_hexChar _ (by omega)]
    have harg : (((hexVal '0') * 16 + hexVal '0') * 16 + c.toNat / 16) * 16 + c.toNat % 16
        = c.toNat := by
      have h0 : hexVal '0' = 0 := by decide
      rw [h0]
      omega
    rw [harg, Char.ofNat_toNat]
  by_cases h7 : c = '<'
  · subst h7; rfl
  by_cases h8 : c = '>'
  · subst h8; rfl
  by_cases h9 : c = '&'
  · subst h9; rfl
  by_cases h10 : c.toNat = 0x2028
  · have hc : c = Char.ofNat 8232 := by rw [← h10, Char.ofNat_toNat]
    subst hc
    rfl
  by_cases h11 : c.toNat = 0x2029
  · have hc : c = Char.ofNat 8233 := by rw [← h11, Char.ofNat_toNat]
    subst hc
    rfl
  · have hesc : escChar c = [c] := by
      simp only [escChar, if_neg h1, if_neg h2, if_neg h3, if_neg h4, if_neg h5, if_neg h6,
        if_neg h7, if_neg h8, if_neg h9, if_neg h10, if_neg h11]
    rw [hesc]
    show decodeEsc (c :: t) = some (c, t)
    simp only [decodeEsc, if_neg h2, if_neg h1]

theorem escList_det : ∀ (cs1 cs2 r1 r2 : List Char),
    escList cs1 ++ '"' :: r1 = escList cs2 ++ '"' :: r2 → cs1 = cs2 ∧ r1 = r2 := by
  intro cs1
  induction cs1 with
  | nil =>
      intro cs2 r1 r2 heq
      cases cs2 with
      | nil => exact ⟨rfl, by simpa using heq⟩
      | cons c t =>
          simp only [escList, List.nil_append, List.append_assoc] at heq
          have hL : decodeEsc ('"' :: r1) = none := rfl
          have hR := escChar_decode c (escList t ++ '"' :: r2)
          rw [heq] at hL
          rw [hL] at hR
          cases hR
  | cons c1 t1 ih =>
      intro cs2 r1 r2 heq
      cases cs2 with
      | nil =>
          simp only [escList, List.nil_append, List.append_assoc] at heq
          have hL := escChar_decode c1 (escList t1 ++ '"' :: r1)
          have hR : decodeEsc ('"' :: r2) = none := rfl
          rw [← heq] at hR
          rw [hL] at hR
          cases hR
      | cons c2 t2 =>
          simp only [escList, List.append_assoc] at heq
          have hd1 := escChar_decode c1 (escList t1 ++ '"' :: r1)
          have hd2 := escChar_decode c2 (escList t2 ++ '"' :: r2)
          rw [heq] at hd1
          rw [hd2] at hd1
          simp only [Option.some.injEq, Prod.mk.injEq] at hd1
          obtain ⟨hc, hrest⟩ := hd1
          obtain ⟨ht, hr⟩ := ih t2 r1 r2 hrest.symm
          exact ⟨by rw [hc, ht], hr⟩

theorem encStr_det {s1 s2 : String} {r1 r2 : List Char}
    (heq : encStrChars s1 ++ r1 = encStrChars s2 ++ r2) : s1 = s2 ∧ r1 = r2 := by
  simp only [encStrChars, List.cons_append, List.append_assoc, List.singleton_append,
    List.cons.injEq, true_and] at heq
  obtain ⟨hdata, hr⟩ := escList_det _ _ _ _ heq
  exact ⟨String.ext hdata, hr⟩

/-! ## Digest machinery 4: the first character of a digest classifies the shape -/

theorem charKind_digit {c : Char} (h : isDigitChar c = true) : charKind c = 2 := by
  have hb : 48 ≤ c.toNat ∧ c.toNat ≤ 57 := by simpa [isDigitChar] using h
  have hn : ¬ c = 'n' := by rintro rfl; exact absurd hb (by decide)
  have h2 : ¬ (c = 't' ∨ c = 'f') := by
    rintro (rfl | rfl) <;> exact absurd hb (by decide)
  simp only [charKind, if_neg hn, if_neg h2, if_pos (Or.inr h)]

theorem digest_head (v : JVal) : ∃ c t, digestV v = c :: t ∧ charKind c = kindOf v := by
  cases v with
  | null => exact ⟨'n', _, rfl, by decide⟩
  | bool b =>
      cases b
      · exact ⟨'f', _, rfl, by decide⟩
      · exact ⟨'t', _, rfl, by decide⟩
  | num n =>
      by_cases hneg : n < 0
      · refine ⟨'-', natChars n.natAbs, ?_, by rfl⟩
        show intChars n = _
        simp [intChars, hneg]
      · cases hnc : natChars n.natAbs with
        | nil => exact absurd hnc (natChars_ne_nil _)
        | cons c t =>
            refine ⟨c, t, ?_, ?_⟩
            · show intChars n = c :: t
              simp [intChars, hneg, hnc]
            · have hd : isDigitChar c = true := natChars_digits _ c (by rw [hnc]; simp)
              rw [charKind_digit hd]
              rfl
  | str s => exact ⟨'"', _, rfl, by rfl⟩
  | arr xs =>
      rw [digestV_arr]
      exact ⟨'[', _, rfl, by rfl⟩
  | obj fs =>
      rw [digestV_obj]
      exact ⟨'{', _, rfl, by rfl⟩

theorem kindOf_eq_null {v : JVal} (h : kindOf v = 0) : v = .null := by
  cases v with
  | null => rfl
  | bool b => simp [kindOf] at h
  | num n => simp [kindOf] at h
  | str s => simp [kindOf] at h
  | arr xs => simp [kindOf] at h
  | obj fs => simp [kindOf] at h

theorem kindOf_eq_bool {v : JVal} (h : kindOf v = 1) : ∃ b, v = .bool b := by
  cases v with
  | bool b => exact ⟨b, rfl⟩
  | null => simp [kindOf] at h
  | num n => simp [kindOf] at h
  | str s => simp [kindOf] at h
  | arr xs => simp [kindOf] at h
  | obj fs => simp [kindOf] at h

theorem kindOf_eq_num {v : JVal} (h : kindOf v = 2) : ∃ n, v = .num n := by
  cases v with
  | num n => exact ⟨n, rfl⟩
  | null => simp [kindOf] at h
  | bool b => simp [kindOf] at h
  | str s => simp [kindOf] at h
  | arr xs => simp [kindOf] at h
  | obj fs => simp [kindOf] at h

theorem kindOf_eq_str {v : JVal} (h : kindOf v = 3) : ∃ s, v = .str s := by
  cases v with
  | str s => exact ⟨s, rfl⟩
  | null => simp [kindOf] at h
  | bool b => simp [kindOf] at h
  | num n => simp [kindOf] at h
  | arr xs => simp [kindOf] at h
  | obj fs => simp [kindOf] at h

theorem kindOf_eq_arr {v : JVal} (h : kindOf v = 4) : ∃ xs, v = .arr xs := by
  cases v with
  | arr xs => exact ⟨xs, rfl⟩
  | null => simp [kindOf] at h
  | bool b => simp [kindOf] at h
  | num n => simp [kindOf] at h
  | str s => simp [kindOf] at h
  | obj fs => simp [kindOf] at h

theorem kindOf_eq_obj {v : JVal} (h : kindOf v = 5) : ∃ fs, v = .obj fs := by
  cases v with
  | obj fs => exact ⟨fs, rfl⟩
  | null => simp [kindOf] at h
  | bool b => simp [kindOf] at h
  | num n => simp [kindOf] at h
  | str s => simp [kindOf] at h
  | arr xs => simp [kindOf] at h

theorem kindOf_le (v : JVal) : kindOf v ≤ 5 := by
  cases v <;> simp [kindOf]

theorem digest_append_kind {v1 v2 : JVal} {r1 r2 : List Char}
    (heq : digestV v1 ++ r1 = digestV v2 ++ r2) : kindOf v1 = kindOf v2 := by
  obtain ⟨c1, t1, h1, k1⟩ := digest_head v1
  obtain ⟨c2, t2, h2, k2⟩ := digest_head v2
  rw [h1, h2] at heq
  simp only [List.cons_append, List.cons.injEq] at heq
  rw [← k1, ← k2, heq.1]

theorem digestV_ne_nil_chars (v : JVal) : digestV v ≠ ['n', 'i', 'l'] := by
  intro hcontra
  obtain ⟨c, t, hct, hk⟩ := digest_head v
  rw [hcontra] at hct
  injection hct with hc ht
  rw [← hc] at hk
  have h0 : kindOf v = 0 := by rw [← hk]; decide
  have hv := kindOf_eq_null h0
  subst hv
  rw [digestV_null] at hcontra
  exact absurd hcontra (by decide)

/-! ## Digest machinery 5: the lexicographic key order and sorting -/

theorem charToNat_inj {a b : Char} (h : a.toNat = b.toNat) : a = b := by
  apply Char.ext
  apply UInt32.ext
  exact h

theorem lexLe_total : ∀ x y : List Char, lexLe x y = true ∨ lexLe y x = true := by
  intro x
  induction x with
  | nil => intro y; left; rfl
  | cons a as ih =>
      intro y
      cases y with
      | nil => right; rfl
      | cons b bs =>
          by_cases hab : a.toNat < b.toNat
          · left; simp [lexLe, hab]
          · by_cases hba : b.toNat < a.toNat
            · right; simp [lexLe, hba]
            · rcases ih bs with h | h
              · left; simp [lexLe, hab, hba, h]
              · right; simp [lexLe, hab, hba, h]

theorem lexLe_trans : ∀ x y z : List Char, lexLe x y = true → lexLe y z = true →
    lexLe x z = true := by
  intro x
  induction x with
  | nil => intro y z _ _; rfl
  | cons a as ih =>
      intro y z h1 h2
      cases y with
      | nil => simp [lexLe] at h1
      | cons b bs =>
          cases z with
          | nil => simp [lexLe] at h2
          | cons c cs =>
              by_cases hba : b.toNat < a.toNat
              · simp [lexLe, show ¬ a.toNat < b.toNat by omega, hba] at h1
              · by_cases hcb : c.toNat < b.toNat
                · simp [lexLe, show ¬ b.toNat < c.toNat by omega, hcb] at h2
                · by_cases hab : a.toNat < b.toNat
                  · simp [lexLe, show a.toNat < c.toNat by omega]
                  · by_cases hbc : b.toNat < c.toNat
                    · simp [lexLe, show a.toNat < c.toNat by omega]
                    · simp only [lexLe, if_neg hab, if_neg hba] at h1
                      simp only [lexLe, if_neg hbc, if_neg hcb] at h2
                      simp only [lexLe, if_neg (show ¬ a.toNat < c.toNat by omega),
                        if_neg (show ¬ c.toNat < a.toNat by omega)]
                      exact ih bs cs h1 h2

theorem lexLe_antisymm : ∀ x y : List Char, lexLe x y = true → lexLe y x = true →
    x = y := by
  intro x
  induction x with
  | nil =>
      intro y _ h2
      cases y with
      | nil => rfl
      | cons b bs => simp [lexLe] at h2
  | cons a as ih =>
      intro y h1 h2
      cases y with
      | nil => simp [lexLe] at h1
      | cons b bs =>
          by_cases hab : a.toNat < b.toNat
          · simp [lexLe, hab, show ¬ b.toNat < a.toNat by omega] at h2
          · by_cases hba : b.toNat < a.toNat
            · simp [lexLe, hab, hba] at h1
            · have hane : a = b := charToNat_inj (by omega)
              subst hane
              simp only [lexLe, if_neg hab, if_neg hba] at h1 h2
              rw [ih bs h1 h2]

theorem strLe_total (a b : String) : strLe a b = true ∨ strLe b a = true :=
  lexLe_total _ _

theorem strLe_trans {a b c : String} (h1 : strLe a b = true) (h2 : strLe b c = true) :
    strLe a c = true :=
  lexLe_trans _ _ _ h1 h2

theorem strLe_antisymm {a b : String} (h1 : strLe a b = true) (h2 : strLe b a = true) :
    a = b :=
  String.ext (lexLe_antisymm _ _ h1 h2)

theorem sortStrings_sorted (l : List String) :
    List.Sorted (fun a b => strLe a b = true) (sortStrings l) := by
  haveI : IsTotal String (fun a b => strLe a b = true) := ⟨strLe_total⟩
  haveI : IsTrans String (fun a b => strLe a b = true) := ⟨fun _ _ _ => strLe_trans⟩
  exact List.sorted_insertionSort _ l

theorem sortStrings_eq_of_perm {l1 l2 : List String} (hp : l1.Perm l2) :
    sortStrings l1 = sortStrings l2 := by
  haveI : IsAntisymm String (fun a b => strLe a b = true) := ⟨fun _ _ => strLe_antisymm⟩
  exact List.eq_of_perm_of_sorted
    ((List.perm_insertionSort _ l1).trans (hp.trans (List.perm_insertionSort _ l2).symm))
    (sortStrings_sorted l1) (sortStrings_sorted l2)

theorem sortStrings_of_sorted {l : List String}
    (h : List.Sorted (fun a b => strLe a b = true) l) : sortStrings l = l :=
  List.Sorted.insertionSort_eq h

theorem map_keys_lookupD (fs : List (String × JVal)) (hnd : (fs.map Prod.fst).Nodup)
    (F : String → JVal → List Char) :
    (fs.map Prod.fst).map (fun k => F k (lookupD fs k)) = fs.map (fun p => F p.1 p.2) := by
  induction fs with
  | nil => rfl
  | cons p t ih =>
      obtain ⟨k, v⟩ := p
      simp only [List.map_cons] at hnd ⊢
      obtain ⟨hnotin, hndt⟩ := List.nodup_cons.mp hnd
      congr 1
      · simp [lookupD, lookupField]
      · rw [← ih hndt]
        apply List.map_congr_left
        intro k2 hk2
        have hne : ¬ k = k2 := fun h => hnotin (h ▸ hk2)
        simp [lookupD, lookupField, hne]

theorem digestV_obj_canon (fs : List (String × JVal))
    (hch : List.Chain' (fun a b => strLe a.1 b.1 = true ∧ a.1 ≠ b.1) fs) :
    digestV (.obj fs) = '{' :: joinComma (fs.map
      (fun p => encStrChars p.1 ++ ':' :: digestV p.2)) ++ ['}'] := by
  have htr : IsTrans String (fun a b => strLe a b = true ∧ a ≠ b) := by
    refine ⟨fun a b c h1 h2 => ⟨strLe_trans h1.1 h2.1, fun hac => ?_⟩⟩
    subst hac
    exact h1.2 (strLe_antisymm h1.1 h2.1)
  have hkeys : List.Chain' (fun a b => strLe a b = true ∧ a ≠ b) (fs.map Prod.fst) := by
    rw [List.chain'_map]
    exact hch
  have hpair : List.Pairwise (fun a b => strLe a b = true ∧ a ≠ b) (fs.map Prod.fst) := by
    haveI := htr
    exact List.chain'_iff_pairwise.mp hkeys
  have hsorted : List.Sorted (fun a b => strLe a b = true) (fs.map Prod.fst) :=
    hpair.imp (fun h => h.1)
  have hnd : (fs.map Prod.fst).Nodup := hpair.imp (fun h => h.2)
  rw [digestV_obj, sortStrings_of_sorted hsorted,
    map_keys_lookupD fs hnd (fun k w => encStrChars k ++ ':' :: digestV w)]

/-! ## Digest machinery 6: determinism (a digest followed by a separator
determines the tree) -/

theorem nds_cons {c : Char} {r : List Char} (h : isDigitChar c = false) :
    NonDigitStart (c :: r) := h

theorem head_ne_digest {x : JVal} {sep : Char} (hsep : charKind sep = 6) :
    ∀ {l r : List Char}, sep :: l = digestV x ++ r → False := by
  intro l r heq
  obtain ⟨c, t, hct, hk⟩ := digest_head x
  rw [hct] at heq
  simp only [List.cons_append, List.cons.injEq] at heq
  rw [← heq.1, hsep] at hk
  have := kindOf_le x
  omega

theorem digest_list_det : ∀ xs1 xs2 : List JVal,
    (∀ x ∈ xs1, DetAt x) → (∀ x ∈ xs1, Canon x) → (∀ x ∈ xs2, Canon x) →
    ∀ r1 r2 : List Char, NonDigitStart r1 → NonDigitStart r2 →
    joinComma (xs1.map digestV) ++ ']' :: r1 = joinComma (xs2.map digestV) ++ ']' :: r2 →
    xs1 = xs2 ∧ r1 = r2 := by
  intro xs1
  induction xs1 with
  | nil =>
      intro xs2 _ _ hc2 r1 r2 _ _ heq
      cases xs2 with
      | nil => exact ⟨rfl, by simpa using heq⟩
      | cons x2 t2 =>
          exfalso
          cases t2 with
          | nil =>
              simp only [List.map_nil, List.map_cons, joinComma, List.nil_append] at heq
              exact head_ne_digest (by decide) heq
          | cons y2 t2 =>
              simp only [List.map_nil, List.map_cons, joinComma, List.nil_append,
                List.append_assoc, List.cons_append] at heq
              exact head_ne_digest (by decide) heq
  | cons x1 t1 ih =>
      intro xs2 hdet hc1 hc2 r1 r2 hr1 hr2 heq
      cases xs2 with
      | nil =>
          exfalso
          cases t1 with
          | nil =>
              simp only [List.map_nil, List.map_cons, joinComma, List.nil_append] at heq
              exact head_ne_digest (by decide) heq.symm
          | cons y1 t1 =>
              simp only [List.map_nil, List.map_cons, joinComma, List.nil_append,
                List.append_assoc, List.cons_append] at heq
              exact head_ne_digest (by decide) heq.symm
      | cons x2 t2 =>
          have hd1 : DetAt x1 := hdet x1 (by simp)
          have hcx1 : Canon x1 := hc1 x1 (by simp)
          have hcx2 : Canon x2 := hc2 x2 (by simp)
          cases t1 with
          | nil =>
              cases t2 with
              | nil =>
                  simp only [List.map_cons, List.map_nil, joinComma] at heq
                  obtain ⟨hx, hr⟩ := hd1 x2 hcx1 hcx2 (']' :: r1) (']' :: r2)
                    (nds_cons (by decide)) (nds_cons (by decide)) heq
                  injection hr with _ hr2eq
                  exact ⟨by rw [hx], hr2eq⟩
              | cons y2 t2 =>
                  exfalso
                  simp only [List.map_cons, List.map_nil, joinComma, List.append_assoc,
                    List.cons_append] at heq
                  obtain ⟨-, hr⟩ := hd1 x2 hcx1 hcx2 (']' :: r1)
                    (',' :: (joinComma ((y2 :: t2).map digestV) ++ ']' :: r2))
                    (nds_cons (by decide)) (nds_cons (by decide)) heq
                  injection hr with hcom _
                  exact absurd hcom (by decide)
          | cons y1 t1 =>
              cases t2 with
              | nil =>
                  exfalso
                  simp only [List.map_cons, List.map_nil, joinComma, List.append_assoc,
                    List.cons_append] at heq
                  obtain ⟨-, hr⟩ := hd1 x2 hcx1 hcx2
                    (',' :: (joinComma ((y1 :: t1).map digestV) ++ ']' :: r1)) (']' :: r2)
                    (nds_cons (by decide)) (nds_cons (by decide)) heq
                  injection hr with hcom _
                  exact absurd hcom (by decide)
              | cons y2 t2 =>
                  simp only [List.map_cons, joinComma, List.append_assoc,
                    List.cons_append] at heq
                  obtain ⟨hx, hr⟩ := hd1 x2 hcx1 hcx2
                    (',' :: (joinComma ((y1 :: t1).map digestV) ++ ']' :: r1))
                    (',' :: (joinComma ((y2 :: t2).map digestV) ++ ']' :: r2))
                    (nds_cons (by decide)) (nds_cons (by decide)) heq
                  injection hr with _ hrest
                  obtain ⟨ht, hr'⟩ := ih (y2 :: t2)
                    (fun x hx2 => hdet x (by simp [hx2]))
                    (fun x hx2 => hc1 x (by simp [hx2]))
                    (fun x hx2 => hc2 x (by simp [hx2]))
                    r1 r2 hr1 hr2 hrest
                  exact ⟨by rw [hx, ht], hr'⟩

theorem digest_fields_det : ∀ fs1 fs2 : List (String × JVal),
    (∀ p ∈ fs1, DetAt p.2) → (∀ p ∈ fs1, Canon p.2) → (∀ p ∈ fs2, Canon p.2) →
    ∀ r1 r2 : List Char, NonDigitStart r1 → NonDigitStart r2 →
    joinComma (fs1.map (fun p => encStrChars p.1 ++ ':' :: digestV p.2)) ++ '}' :: r1
      = joinComma (fs2.map (fun p => encStrChars p.1 ++ ':' :: digestV p.2)) ++ '}' :: r2 →
    fs1 = fs2 ∧ r1 = r2 := by
  have hquote : ∀ (k : String) (X l : List Char),
      '}' :: l = encStrChars k ++ X → False := by
    intro k X l heq
    simp only [encStrChars, List.cons_append, List.cons.injEq] at heq
    exact absurd heq.1 (by decide)
  intro fs1
  induction fs1 with
  | nil =>
      intro fs2 _ _ hc2 r1 r2 _ _ heq
      cases fs2 with
      | nil => exact ⟨rfl, by simpa using heq⟩
      | cons p2 t2 =>
          exfalso
          obtain ⟨k2, v2⟩ := p2
          cases t2 with
          | nil =>
              simp only [List.map_nil, List.map_cons, joinComma, List.nil_append,
                List.cons_append, List.append_assoc] at heq
              exact hquote k2 _ _ heq
          | cons q2 t2 =>
              simp only [List.map_nil, List.map_cons, joinComma, List.nil_append,
                List.cons_append, List.append_assoc] at heq
              exact hquote k2 _ _ heq
  | cons p1 t1 ih =>
      intro fs2 hdet hc1 hc2 r1 r2 hr1 hr2 heq
      obtain ⟨k1, v1⟩ := p1
      cases fs2 with
      | nil =>
          exfalso
          cases t1 with
          | nil =>
              simp only [List.map_nil, List.map_cons, joinComma, List.nil_append,
                List.cons_append, List.append_assoc] at heq
              exact hquote k1 _ _ heq.symm
          | cons q1 t1 =>
              simp only [List.map_nil, List.map_cons, joinComma, List.nil_append,
                List.cons_append, List.append_assoc] at heq
              exact hquote k1 _ _ heq.symm
      | cons p2 t2 =>
          obtain ⟨k2, v2⟩ := p2
          have hd1 : DetAt v1 := hdet (k1, v1) (by simp)
          have hcv1 : Canon v1 := hc1 (k1, v1) (by simp)
          have hcv2 : Canon v2 := hc2 (k2, v2) (by simp)
          cases t1 with
          | nil =>
              cases t2 with
              | nil =>
                  simp only [List.map_cons, List.map_nil, joinComma, List.append_assoc,
                    List.cons_append] at heq
                  obtain ⟨hk, hrest⟩ := encStr_det heq
                  injection hrest with _ hrest
                  obtain ⟨hv, hr⟩ := hd1 v2 hcv1 hcv2 ('}' :: r1) ('}' :: r2)
                    (nds_cons (by decide)) (nds_cons (by decide)) hrest
                  injection hr with _ hr2eq
                  exact ⟨by rw [hk, hv], hr2eq⟩
              | cons q2 t2 =>
                  exfalso
                  simp only [List.map_cons, List.map_nil, joinComma, List.append_assoc,
                    List.cons_append] at heq
                  obtain ⟨-, hrest⟩ := encStr_det heq
                  injection hrest with _ hrest
                  obtain ⟨-, hr⟩ := hd1 v2 hcv1 hcv2 ('}' :: r1)
                    (',' :: (joinComma ((q2 :: t2).map
                      (fun p => encStrChars p.1 ++ ':' :: digestV p.2)) ++ '}' :: r2))
                    (nds_cons (by decide)) (nds_cons (by decide)) hrest
                  injection hr with hcom _
                  exact absurd hcom (by decide)
          | cons q1 t1 =>
              cases t2 with
              | nil =>
                  exfalso
                  simp only [List.map_cons, List.map_nil, joinComma, List.append_assoc,
                    List.cons_append] at heq
                  obtain ⟨-, hrest⟩ := encStr_det heq
                  injection hrest with _ hrest
                  obtain ⟨-, hr⟩ := hd1 v2 hcv1 hcv2
                    (',' :: (joinComma ((q1 :: t1).map
                      (fun p => encStrChars p.1 ++ ':' :: digestV p.2)) ++ '}' :: r1))
                    ('}' :: r2)
                    (nds_cons (by decide)) (nds_cons (by decide)) hrest
                  injection hr with hcom _
                  exact absurd hcom (by decide)
              | cons q2 t2 =>
                  simp only [List.map_cons, joinComma, List.append_assoc,
                    List.cons_append] at heq
                  obtain ⟨hk, hrest⟩ := encStr_det heq
                  injection hrest with _ hrest
                  obtain ⟨hv, hr⟩ := hd1 v2 hcv1 hcv2
                    (',' :: (joinComma ((q1 :: t1).map
                      (fun p => encStrChars p.1 ++ ':' :: digestV p.2)) ++ '}' :: r1))
                    (',' :: (joinComma ((q2 :: t2).map
                      (fun p => encStrChars p.1 ++ ':' :: digestV p.2)) ++ '}' :: r2))
                    (nds_cons (by decide)) (nds_cons (by decide)) hrest
                  injection hr with _ hrest2
                  obtain ⟨ht, hr'⟩ := ih (q2 :: t2)
                    (fun p hp => hdet p (by simp [hp]))
                    (fun p hp => hc1 p (by simp [hp]))
                    (fun p hp => hc2 p (by simp [hp]))
                    r1 r2 hr1 hr2 hrest2
                  exact ⟨by rw [hk, hv, ht], hr'⟩

theorem canon_arr_elems {xs : List JVal} (h : Canon (.arr xs)) : ∀ x ∈ xs, Canon x := by
  cases h with
  | arr _ h => exact h

theorem canon_obj_values {fs : List (String × JVal)} (h : Canon (.obj fs)) :
    ∀ p ∈ fs, Canon p.2 := by
  cases h with
  | obj _ hv _ => exact hv

theorem canon_obj_chain {fs : List (String × JVal)} (h : Canon (.obj fs)) :
    List.Chain' (fun a b => strLe a.1 b.1 = true ∧ a.1 ≠ b.1) fs := by
  cases h with
  | obj _ _ hc => exact hc

theorem digest_det_aux : ∀ N : Nat, ∀ v1 : JVal, jsize v1 ≤ N → DetAt v1 := by
  intro N
  induction N with
  | zero =>
      intro v1 h
      exfalso
      have := jsize_pos v1
      omega
  | succ N ih =>
      intro v1 hsz v2 hc1 hc2 r1 r2 hr1 hr2 heq
      have hkind := digest_append_kind heq
      cases v1 with
      | null =>
          have hv2 := kindOf_eq_null (by rw [← hkind]; rfl)
          subst hv2
          rw [digestV_null] at heq
          exact ⟨rfl, by simpa using heq⟩
      | bool b =>
          obtain ⟨b2, hv2⟩ := kindOf_eq_bool (by rw [← hkind]; rfl)
          subst hv2
          cases b <;> cases b2
          · refine ⟨rfl, ?_⟩
            have h2 : (['f', 'a', 'l', 's', 'e'] : List Char) ++ r1
                = ['f', 'a', 'l', 's', 'e'] ++ r2 := heq
            simpa using h2
          · exfalso
            have h2 : (['f', 'a', 'l', 's', 'e'] : List Char) ++ r1
                = ['t', 'r', 'u', 'e'] ++ r2 := heq
            simpa using h2
          · exfalso
            have h2 : (['t', 'r', 'u', 'e'] : List Char) ++ r1
                = ['f', 'a', 'l', 's', 'e'] ++ r2 := heq
            simpa using h2
          · refine ⟨rfl, ?_⟩
            have h2 : (['t', 'r', 'u', 'e'] : List Char) ++ r1
                = ['t', 'r', 'u', 'e'] ++ r2 := heq
            simpa using h2
      | num n =>
          obtain ⟨n2, hv2⟩ := kindOf_eq_num (by rw [← hkind]; rfl)
          subst hv2
          obtain ⟨hn, hr⟩ := intChars_det hr1 hr2 heq
          exact ⟨by rw [hn], hr⟩
      | str s =>
          obtain ⟨s2, hv2⟩ := kindOf_eq_str (by rw [← hkind]; rfl)
          subst hv2
          obtain ⟨hs, hr⟩ := encStr_det heq
          exact ⟨by rw [hs], hr⟩
      | arr xs =>
          obtain ⟨xs2, hv2⟩ := kindOf_eq_arr (by rw [← hkind]; rfl)
          subst hv2
          rw [digestV_arr, digestV_arr] at heq
          simp only [List.cons_append, List.append_assoc, List.singleton_append,
            List.cons.injEq, true_and] at heq
          have helems : ∀ x ∈ xs, DetAt x := by
            intro x hx
            apply ih
            have h1 := jsize_le_of_mem hx
            simp only [jsize] at hsz
            omega
          obtain ⟨hxs, hr⟩ := digest_list_det xs xs2 helems (canon_arr_elems hc1)
            (canon_arr_elems hc2) r1 r2 hr1 hr2 heq
          exact ⟨by rw [hxs], hr⟩
      | obj fs =>
          obtain ⟨fs2, hv2⟩ := kindOf_eq_obj (by rw [← hkind]; rfl)
          subst hv2
          rw [digestV_obj_canon fs (canon_obj_chain hc1),
            digestV_obj_canon fs2 (canon_obj_chain hc2)] at heq
          simp only [List.cons_append, List.append_assoc, List.singleton_append,
            List.cons.injEq, true_and] at heq
          have helems : ∀ p ∈ fs, DetAt p.2 := by
            intro p hp
            apply ih
            have h1 := jsize_snd_le_of_mem hp
            simp only [jsize] at hsz
            omega
          obtain ⟨hfs, hr⟩ := digest_fields_det fs fs2 helems (canon_obj_values hc1)
            (canon_obj_values hc2) r1 r2 hr1 hr2 heq
          exact ⟨by rw [hfs], hr⟩

theorem digestV_inj {v1 v2 : JVal} (h1 : Canon v1) (h2 : Canon v2)
    (heq : digestV v1 = digestV v2) : v1 = v2 :=
  (digest_det_aux (jsize v1) v1 (le_refl _) v2 h1 h2 [] [] trivial trivial
    (by simp [heq])).1

/-! ## C5: `IsSameJSONWith` -/

theorem digest_nonempty_ne_nil (v : JVal) :
    Json.DigestJSONForEqual ⟨some v⟩ ≠ "nil" := by
  intro h
  have h2 : digestV v = ['n', 'i', 'l'] := congrArg String.data h
  exact digestV_ne_nil_chars v h2

/-- C5: `IsSameJSONWith` is reflexive and symmetric; a nil reference for the
other side behaves exactly as an empty wrapper; and the result is true
precisely when both sides are empty or both digests are identical strings. -/
theorem c5_issame_refl_symm_characterization :
    (∀ j : Json, Json.IsSameJSONWith j (some j) = true)
    ∧ (∀ a b : Json, Json.IsSameJSONWith a (some b) = Json.IsSameJSONWith b (some a))
    ∧ (∀ j : Json, Json.IsSameJSONWith j none = Json.IsSameJSONWith j (some ⟨none⟩))
    ∧ (∀ a b : Json, Json.IsSameJSONWith a (some b) = true ↔
        (a.IsEmpty = true ∧ b.IsEmpty = true)
        ∨ Json.DigestJSONForEqual a = Json.DigestJSONForEqual b) := by
  refine ⟨?_, ?_, ?_, ?_⟩
  · intro j
    obtain ⟨v⟩ := j
    cases v with
    | none => rfl
    | some v => simp [Json.IsSameJSONWith, Json.IsEmpty]
  · intro a b
    obtain ⟨av⟩ := a
    obtain ⟨bv⟩ := b
    cases av with
    | none =>
        cases bv with
        | none => rfl
        | some bv =>
            have hne : ¬ Json.DigestJSONForEqual ⟨none⟩ = Json.DigestJSONForEqual ⟨some bv⟩ :=
              fun h => digest_nonempty_ne_nil bv h.symm
            simp [Json.IsSameJSONWith, Json.IsEmpty, beq_eq_false_iff_ne, hne]
    | some av =>
        cases bv with
        | none =>
            have hne : ¬ Json.DigestJSONForEqual ⟨none⟩ = Json.DigestJSONForEqual ⟨some av⟩ :=
              fun h => digest_nonempty_ne_nil av h.symm
            simp [Json.IsSameJSONWith, Json.IsEmpty, beq_eq_false_iff_ne, hne]
        | some bv =>
            by_cases h : Json.DigestJSONForEqual ⟨some av⟩ = Json.DigestJSONForEqual ⟨some bv⟩
            · simp [Json.IsSameJSONWith, Json.IsEmpty, h]
            · have hsym : ¬ Json.DigestJSONForEqual ⟨some bv⟩ = Json.DigestJSONForEqual ⟨some av⟩ :=
                fun h2 => h h2.symm
              simp [Json.IsSameJSONWith, Json.IsEmpty, beq_eq_false_iff_ne, h, hsym]
  · intro j
    rfl
  · intro a b
    obtain ⟨av⟩ := a
    obtain ⟨bv⟩ := b
    cases av with
    | none =>
        cases bv with
        | none => simp [Json.IsSameJSONWith, Json.IsEmpty]
        | some bv =>
            have hne : ¬ Json.DigestJSONForEqual ⟨none⟩ = Json.DigestJSONForEqual ⟨some bv⟩ :=
              fun h => digest_nonempty_ne_nil bv h.symm
            simp [Json.IsSameJSONWith, Json.IsEmpty, beq_eq_false_iff_ne, hne]
    | some av =>
        cases bv with
        | none =>
            have hne : ¬ Json.DigestJSONForEqual ⟨some av⟩ = Json.DigestJSONForEqual ⟨none⟩ :=
              digest_nonempty_ne_nil av
            simp [Json.IsSameJSONWith, Json.IsEmpty, hne]
        | some bv =>
            simp [Json.IsSameJSONWith, Json.IsEmpty, beq_iff_eq]

/-! ## C1: the digest is order-independent for objects, order-sensitive for
arrays, and sorts object keys -/

theorem lookupField_perm {l1 l2 : List (String × JVal)} (hp : l1.Perm l2) (k : String) :
    (l1.map Prod.fst).Nodup → lookupField l1 k = lookupField l2 k := by
  induction hp with
  | nil => intro _; rfl
  | cons p t ih =>
      intro hnd
      obtain ⟨kp, vp⟩ := p
      simp only [List.map_cons, List.nodup_cons] at hnd
      by_cases h : kp = k
      · simp [lookupField, h]
      · simp [lookupField, h, ih hnd.2]
  | swap x y l =>
      intro hnd
      obtain ⟨kx, vx⟩ := x
      obtain ⟨ky, vy⟩ := y
      simp only [List.map_cons, List.nodup_cons, List.mem_cons] at hnd
      by_cases h1 : ky = k <;> by_cases h2 : kx = k
      · exfalso
        exact hnd.1 (Or.inl (h1.trans h2.symm))
      · simp [lookupField, h1, h2]
      · simp [lookupField, h1, h2]
      · simp [lookupField, h1, h2]
  | trans h12 h23 ih1 ih2 =>
      intro hnd
      have hnd2 := ((h12.map Prod.fst).nodup_iff).mp hnd
      rw [ih1 hnd, ih2 hnd2]

/-- C1: the digest of an object is independent of the insertion order of its
key-value pairs; the digest of an array is sensitive to element order (two
different orderings of the same elements always digest differently); and
object keys are emitted sorted lexicographically ascending. -/
theorem c1_digest_object_order_free_array_order_sensitive :
    (∀ l1 l2 : List (String × JVal), (l1.map Prod.fst).Nodup → l1.Perm l2 →
        Json.DigestJSONForEqual ⟨some (.obj l1)⟩ = Json.DigestJSONForEqual ⟨some (.obj l2)⟩)
    ∧ (∀ xs ys : List JVal, (∀ x ∈ xs, Canon x) → xs.Perm ys → xs ≠ ys →
        Json.DigestJSONForEqual ⟨some (.arr xs)⟩ ≠ Json.DigestJSONForEqual ⟨some (.arr ys)⟩)
    ∧ (∀ l : List (String × JVal),
        digestV (.obj l) = '{' :: joinComma ((sortStrings (l.map Prod.fst)).map
          (fun k => encStrChars k ++ ':' :: digestV (lookupD l k))) ++ ['}']
        ∧ List.Sorted (fun a b => strLe a b = true) (sortStrings (l.map Prod.fst))) := by
  refine ⟨?_, ?_, ?_⟩
  · intro l1 l2 hnd hp
    show String.mk (digestV (.obj l1)) = String.mk (digestV (.obj l2))
    congr 1
    rw [digestV_obj, digestV_obj]
    have hkeys : sortStrings (l1.map Prod.fst) = sortStrings (l2.map Prod.fst) :=
      sortStrings_eq_of_perm (hp.map Prod.fst)
    rw [← hkeys]
    have hmap : (sortStrings (l1.map Prod.fst)).map
          (fun k => encStrChars k ++ ':' :: digestV (lookupD l1 k))
        = (sortStrings (l1.map Prod.fst)).map
          (fun k => encStrChars k ++ ':' :: digestV (lookupD l2 k)) := by
      apply List.map_congr_left
      intro k hk
      rw [show lookupD l1 k = lookupD l2 k from by
        simp [lookupD, lookupField_perm hp k hnd]]
    rw [hmap]
  · intro xs ys hcanon hp hne hcontra
    have h2 : digestV (.arr xs) = digestV (.arr ys) := congrArg String.data hcontra
    have hxy := digestV_inj (Canon.arr xs hcanon)
      (Canon.arr ys (fun x hx => hcanon x (hp.mem_iff.mpr hx))) h2
    injection hxy with h3
    exact hne h3
  · intro l
    exact ⟨digestV_obj l, sortStrings_sorted _⟩

/-- C1 witness: `{"a":1,"b":2}` and `{"b":2,"a":1}` digest identically;
`["a","b"]` and `["b","a"]` digest differently. -/
theorem c1_witness :
    Json.DigestJSONForEqual ⟨some (.obj [("a", JVal.num 1), ("b", JVal.num 2)])⟩
      = Json.DigestJSONForEqual ⟨some (.obj [("b", JVal.num 2), ("a", JVal.num 1)])⟩
    ∧ Json.DigestJSONForEqual ⟨some (.arr [JVal.str "a", JVal.str "b"])⟩
      ≠ Json.DigestJSONForEqual ⟨some (.arr [JVal.str "b", JVal.str "a"])⟩ := by
  constructor
  · exact c1_digest_object_order_free_array_order_sensitive.1
      [("a", JVal.num 1), ("b", JVal.num 2)] [("b", JVal.num 2), ("a", JVal.num 1)]
      (by decide) (List.Perm.swap ("b", JVal.num 2) ("a", JVal.num 1) [])
  · exact c1_digest_object_order_free_array_order_sensitive.2.1
      [JVal.str "a", JVal.str "b"] [JVal.str "b", JVal.str "a"]
      (by
        intro x hx
        rcases List.mem_cons.mp hx with h | h2
        · subst h; exact Canon.str _
        · rcases List.mem_cons.mp h2 with h | h3
          · subst h; exact Canon.str _
          · cases h3)
      (List.Perm.swap (JVal.str "b") (JVal.str "a") [])
      (by
        intro h
        injection h with h1 _
        injection h1 with hs
        exact absurd hs (by decide))

end Betterjson
